import Mathlib

/-!
# Verification of `scrape-countries.py`

A shallow embedding of the two parsers of `scrape-countries.py` (the
IANA time-zone scraping script) together with proofs of the spec's
claims about them.

The Python string primitives the script uses (`str.splitlines`,
`str.strip`, `str.split` with an explicit single-character separator,
`str.startswith("#")`, `"/" in s`) are embedded as executable Lean
functions on `String`/`List Char`.  The Python `dict` built by
`parse_iso3166` is embedded as an insertion-ordered association list
with overwrite-on-duplicate-key semantics, which is exactly the
observable behaviour of a CPython `dict` (insertion order preserved,
last write wins, `get` with a default).
-/

/-- The set of whitespace characters stripped by Python's `str.strip()`
(the ASCII portion, which is all that can occur in the script's inputs):
space, tab, newline, carriage return, vertical tab, form feed. -/
def pyIsSpace (c : Char) : Bool :=
  c == ' ' || c == '\t' || c == '\n' || c == '\r' ||
  c == Char.ofNat 11 || c == Char.ofNat 12

/-- Strip leading and trailing whitespace from a character list,
as Python's `str.strip()` does. -/
def pyStripChars (l : List Char) : List Char :=
  ((l.dropWhile pyIsSpace).reverse.dropWhile pyIsSpace).reverse

/-- Python's `line.strip()`. -/
def pyStrip (s : String) : String :=
  ⟨pyStripChars s.data⟩

/-- Worker for `pySplitlines`: `acc` holds the current (reversed) line. -/
def pySplitlinesAux (acc : List Char) : List Char → List String
  | [] => if acc.isEmpty then [] else [⟨acc.reverse⟩]
  | '\r' :: '\n' :: rest => ⟨acc.reverse⟩ :: pySplitlinesAux [] rest
  | '\n' :: rest => ⟨acc.reverse⟩ :: pySplitlinesAux [] rest
  | '\r' :: rest => ⟨acc.reverse⟩ :: pySplitlinesAux [] rest
  | c :: rest => pySplitlinesAux (c :: acc) rest

/-- Python's `content.splitlines()`: splits on `\n`, `\r\n` and `\r`,
with no empty line produced after a trailing line terminator. -/
def pySplitlines (s : String) : List String :=
  pySplitlinesAux [] s.data

/-- Worker for `pySplitC`: `acc` holds the current (reversed) field. -/
def pySplitCAux (sep : Char) (acc : List Char) : List Char → List String
  | [] => [⟨acc.reverse⟩]
  | c :: rest =>
      if c == sep then ⟨acc.reverse⟩ :: pySplitCAux sep [] rest
      else pySplitCAux sep (c :: acc) rest

/-- Python's `s.split(sep)` for a one-character separator `sep`:
keeps empty fields, and `"".split(sep) == [""]`. -/
def pySplitC (s : String) (sep : Char) : List String :=
  pySplitCAux sep [] s.data

/-- Python's `line.startswith("#")`. -/
def pyStartsWithHash (s : String) : Bool :=
  match s.data with
  | [] => false
  | c :: _ => c == '#'

/-- The skip test both parsers perform on the stripped line:
`if not line or line.startswith("#"): continue`. -/
def skipsLine (line : String) : Bool :=
  line == "" || pyStartsWithHash line

/-- The Python `dict[str, str]` of the script, embedded as an
insertion-ordered association list. -/
abbrev Dict := List (String × String)

/-- `country_map[code] = name`: overwrite in place if the key is
present, else append — CPython dict insertion semantics. -/
def dictInsert (m : Dict) (k v : String) : Dict :=
  if m.any (fun p => p.1 == k) then
    m.map (fun p => if p.1 == k then (k, v) else p)
  else m ++ [(k, v)]

/-- Key lookup in the embedded dict. -/
def dictLookup (m : Dict) (k : String) : Option String :=
  (m.find? (fun p => p.1 == k)).map Prod.snd

/-- Python's `country_map.get(code, default)`. -/
def dictGet (m : Dict) (k dflt : String) : String :=
  (dictLookup m k).getD dflt

/-- One iteration of the loop of `parse_iso3166`: strip the line, skip
blanks and comments, split on tabs, and if there are at least two
fields store `parts[0] -> parts[1]`. -/
def processIsoLine (m : Dict) (rawLine : String) : Dict :=
  let line := pyStrip rawLine
  if skipsLine line then m
  else
    let parts := pySplitC line '\t'
    if 2 ≤ parts.length then
      dictInsert m (parts.getD 0 "") (parts.getD 1 "")
    else m

/-- `parse_iso3166(content)`: fold the per-line step over
`content.splitlines()` starting from the empty dict. -/
def parse_iso3166 (content : String) : Dict :=
  (pySplitlines content).foldl processIsoLine []

/-- A timezone record `{"name": ..., "label": ..., "country": ...}`. -/
structure TZRecord where
  name : String
  label : String
  country : String
deriving DecidableEq, Repr

/-- The emission stage of `parse_zone1970`, acting on the tab-split
fields of a surviving line: with at least three fields, split field 0
on commas, take field 2 as the zone name, derive the region as the part
of the zone name before the first `/` (the whole name if there is no
`/`), and emit one record per country code, the label looked up in the
country map with the raw code as the fallback default. -/
def emitRecords (m : Dict) (parts : List String) : List TZRecord :=
  if 3 ≤ parts.length then
    let country_codes := pySplitC (parts.getD 0 "") ','
    let tz_name := parts.getD 2 ""
    let region :=
      if tz_name.data.contains '/' then (pySplitC tz_name '/').getD 0 ""
      else tz_name
    country_codes.map (fun c => ⟨tz_name, dictGet m c c, region⟩)
  else []

/-- One iteration of the loop of `parse_zone1970`: strip, skip blanks
and comments, then emit the line's records. -/
def processZoneLine (m : Dict) (rawLine : String) : List TZRecord :=
  let line := pyStrip rawLine
  if skipsLine line then [] else emitRecords m (pySplitC line '\t')

/-- `parse_zone1970(content, country_map)`: the loop appends each
line's records to the accumulator `timezones`, starting from `[]`. -/
def parse_zone1970 (content : String) (country_map : Dict) : List TZRecord :=
  (pySplitlines content).foldl
    (fun timezones line => timezones ++ processZoneLine country_map line) []

/-- Spec-side description of the `country` field: the prefix of the
zone identifier before its first `/`, or the whole identifier when it
contains no `/`. -/
def specCountry (tz : String) : String :=
  ⟨tz.data.takeWhile (fun c => !(c == '/'))⟩

/-- Spec-side description of the entry a country-table line
contributes: `(field 0, field 1)` for a surviving line with at least
two tab-separated fields, nothing otherwise. -/
def isoEntryOf (rawLine : String) : Option (String × String) :=
  let line := pyStrip rawLine
  if skipsLine line then none
  else
    let parts := pySplitC line '\t'
    if 2 ≤ parts.length then some (parts.getD 0 "", parts.getD 1 "") else none

/-- The per-line `(field 0, field 1)` entries of a country table, in
line order. -/
def isoEntries (content : String) : List (String × String) :=
  (pySplitlines content).filterMap isoEntryOf

/-! ## Basic facts about the string primitives -/

theorem pySplitCAux_ne_nil (sep : Char) (acc l : List Char) :
    pySplitCAux sep acc l ≠ [] := by
  induction l generalizing acc with
  | nil => simp [pySplitCAux]
  | cons c rest ih =>
      simp only [pySplitCAux]
      split
      · simp
      · exact ih _

theorem pySplitC_ne_nil (s : String) (sep : Char) : pySplitC s sep ≠ [] :=
  pySplitCAux_ne_nil sep [] s.data

theorem pySplitCAux_head (sep : Char) (acc l : List Char) :
    (pySplitCAux sep acc l).getD 0 ""
      = ⟨acc.reverse ++ l.takeWhile (fun c => !(c == sep))⟩ := by
  induction l generalizing acc with
  | nil => simp [pySplitCAux, List.takeWhile]
  | cons c rest ih =>
      by_cases h : (c == sep) = true
      · simp [pySplitCAux, List.takeWhile_cons, h]
      · have hc : (c == sep) = false := by simpa using h
        simp only [pySplitCAux, List.takeWhile_cons, hc, Bool.not_false,
          if_false, if_true, Bool.false_eq_true, ite_false, ite_true]
        rw [ih]
        simp

theorem pySplitC_head (s : String) (sep : Char) :
    (pySplitC s sep).getD 0 "" = ⟨s.data.takeWhile (fun c => !(c == sep))⟩ := by
  rw [pySplitC, pySplitCAux_head]
  simp

/-- The `region` computed by `parse_zone1970` is exactly the spec's
`country`: the prefix of the zone name before its first `/`, or the
whole name when there is no `/`. -/
theorem region_eq_specCountry (tz : String) :
    (if tz.data.contains '/' then (pySplitC tz '/').getD 0 "" else tz)
      = specCountry tz := by
  by_cases h : tz.data.contains '/'
  · rw [if_pos h, pySplitC_head, specCountry]
  · rw [if_neg h, specCountry]
    have hmem : '/' ∉ tz.data := by
      intro hm
      apply h
      rw [List.contains_eq_any_beq, List.any_eq_true]
      exact ⟨'/', hm, by simp⟩
    have hall : ∀ c ∈ tz.data, (!(c == '/')) = true := by
      intro c hc
      simp only [Bool.not_eq_true', beq_eq_false_iff_ne, ne_eq]
      rintro rfl
      exact hmem hc
    rw [List.takeWhile_eq_self_iff.mpr hall]

/-! ## The zone parser as a flat concatenation of per-line groups -/

theorem foldl_append_eq_flatten {α β : Type} (f : α → List β)
    (l : List α) (init : List β) :
    l.foldl (fun acc x => acc ++ f x) init = init ++ (l.map f).flatten := by
  induction l generalizing init with
  | nil => simp
  | cons a t ih => simp [List.foldl_cons, ih, List.append_assoc]

theorem parse_zone1970_eq_flatten (content : String) (m : Dict) :
    parse_zone1970 content m
      = ((pySplitlines content).map (processZoneLine m)).flatten := by
  rw [parse_zone1970, foldl_append_eq_flatten]
  simp

theorem processZoneLine_of_skip (m : Dict) (raw : String)
    (h : skipsLine (pyStrip raw) = true) : processZoneLine m raw = [] := by
  rw [processZoneLine]
  simp [h]

theorem processIsoLine_of_skip (m : Dict) (raw : String)
    (h : skipsLine (pyStrip raw) = true) : processIsoLine m raw = m := by
  rw [processIsoLine]
  simp [h]

theorem processZoneLine_of_emit (m : Dict) (raw : String)
    (h : skipsLine (pyStrip raw) = false) :
    processZoneLine m raw = emitRecords m (pySplitC (pyStrip raw) '\t') := by
  rw [processZoneLine]
  simp [h]

theorem emitRecords_of_long (m : Dict) (parts : List String)
    (h : 3 ≤ parts.length) :
    emitRecords m parts
      = (pySplitC (parts.getD 0 "") ',').map
          (fun c => ⟨parts.getD 2 "", dictGet m c c, specCountry (parts.getD 2 "")⟩) := by
  simp only [emitRecords, if_pos h, region_eq_specCountry]

/-! ## Dictionary lemmas -/

theorem dictLookup_dictInsert_self (m : Dict) (k v : String) :
    dictLookup (dictInsert m k v) k = some v := by
  rw [dictInsert]
  by_cases h : m.any (fun p => p.1 == k)
  · rw [if_pos h, dictLookup, List.find?_map]
    have hpred : ((fun p : String × String => p.1 == k) ∘
        fun p : String × String => if p.1 == k then (k, v) else p)
        = fun p : String × String => p.1 == k := by
      funext p
      by_cases hp : (p.1 == k) = true
      · simp [Function.comp, hp]
      · simp [Function.comp, hp]
    rw [hpred]
    rcases List.any_eq_true.mp h with ⟨q, hqmem, hq⟩
    have hsome : (m.find? (fun p => p.1 == k)).isSome :=
      List.find?_isSome.mpr ⟨q, hqmem, hq⟩
    rcases Option.isSome_iff_exists.mp hsome with ⟨r, hr⟩
    have hrk : (r.1 == k) = true := by simpa using List.find?_some hr
    have hrk' : r.1 = k := by simpa using hrk
    rw [hr]
    simp [hrk, hrk']
  · rw [if_neg h, dictLookup, List.find?_append]
    have hnone : m.find? (fun p => p.1 == k) = none := by
      rw [List.find?_eq_none]
      intro x hx hxk
      exact h (List.any_eq_true.mpr ⟨x, hx, hxk⟩)
    rw [hnone]
    simp [List.find?_cons]

theorem dictLookup_dictInsert_ne (m : Dict) (k v k' : String) (hne : k' ≠ k) :
    dictLookup (dictInsert m k v) k' = dictLookup m k' := by
  rw [dictInsert]
  by_cases h : m.any (fun p => p.1 == k)
  · rw [if_pos h, dictLookup, List.find?_map]
    have hpred : ((fun p : String × String => p.1 == k') ∘
        fun p : String × String => if p.1 == k then (k, v) else p)
        = fun p : String × String => p.1 == k' := by
      funext p
      by_cases hp : (p.1 == k) = true
      · have hpk : p.1 = k := by simpa using hp
        have h1 : (k == k') = false := beq_eq_false_iff_ne.mpr fun he => hne he.symm
        have h2 : (p.1 == k') = false := by rw [hpk]; exact h1
        simp [Function.comp, hp, h1, h2]
      · simp [Function.comp, hp]
    rw [hpred, dictLookup]
    rcases hfind : m.find? (fun p => p.1 == k') with _ | r
    · rw [hfind]
      rfl
    · rw [hfind]
      have hrk : (r.1 == k') = true := by simpa using List.find?_some hfind
      have hrk' : r.1 = k' := by simpa using hrk
      have hrne : ¬ r.1 = k := by rw [hrk']; exact hne
      have hrneb : (r.1 == k) = false := beq_eq_false_iff_ne.mpr hrne
      simp [Function.comp, hrne, hrneb]
  · rw [if_neg h, dictLookup, List.find?_append, dictLookup]
    have hlast : List.find? (fun p : String × String => p.1 == k') [(k, v)] = none := by
      simp [List.find?_cons, (beq_eq_false_iff_ne).mpr (Ne.symm hne)]
    rw [hlast, Option.or_none]

theorem keys_dictInsert_of_mem (m : Dict) (k v : String)
    (h : m.any (fun p => p.1 == k) = true) :
    (dictInsert m k v).map Prod.fst = m.map Prod.fst := by
  rw [dictInsert, if_pos h, List.map_map]
  apply List.map_congr_left
  intro p _
  by_cases hp : (p.1 == k) = true
  · have : p.1 = k := by simpa using hp
    simp [Function.comp, hp, this]
  · simp [Function.comp, hp]

theorem keys_dictInsert_of_not_mem (m : Dict) (k v : String)
    (h : m.any (fun p => p.1 == k) = false) :
    (dictInsert m k v).map Prod.fst = m.map Prod.fst ++ [k] := by
  rw [dictInsert, if_neg (by simp [h]), List.map_append]
  rfl

theorem nodup_keys_dictInsert (m : Dict) (k v : String)
    (h : (m.map Prod.fst).Nodup) :
    ((dictInsert m k v).map Prod.fst).Nodup := by
  cases hany : m.any (fun p => p.1 == k) with
  | true =>
      rw [keys_dictInsert_of_mem m k v hany]
      exact h
  | false =>
      rw [keys_dictInsert_of_not_mem m k v hany, List.nodup_append]
      refine ⟨h, List.nodup_singleton k, ?_⟩
      intro a ha hb
      have hak : a = k := by simpa using hb
      subst hak
      rcases List.mem_map.mp ha with ⟨p, hpmem, hpk⟩
      have hpa : (p.1 == a) = true := by simp [hpk]
      rw [List.any_eq_false] at hany
      exact hany p hpmem hpa

theorem processIsoLine_eq_entry (m : Dict) (raw : String) :
    processIsoLine m raw
      = match isoEntryOf raw with
        | none => m
        | some p => dictInsert m p.1 p.2 := by
  rw [processIsoLine, isoEntryOf]
  by_cases h : skipsLine (pyStrip raw) = true
  · simp [h]
  · have h' : skipsLine (pyStrip raw) = false := by simpa using h
    by_cases hlen : 2 ≤ (pySplitC (pyStrip raw) '\t').length
    · simp [h', hlen]
    · simp [h', hlen]

theorem foldl_processIsoLine_eq (lines : List String) (m : Dict) :
    lines.foldl processIsoLine m
      = (lines.filterMap isoEntryOf).foldl (fun m p => dictInsert m p.1 p.2) m := by
  induction lines generalizing m with
  | nil => rfl
  | cons raw rest ih =>
      rw [List.foldl_cons, ih, List.filterMap_cons]
      rcases hentry : isoEntryOf raw with _ | p
      · rw [processIsoLine_eq_entry, hentry]
      · rw [processIsoLine_eq_entry, hentry, List.foldl_cons]

theorem dictLookup_foldl_dictInsert (entries : List (String × String))
    (m : Dict) (k : String) :
    dictLookup (entries.foldl (fun m p => dictInsert m p.1 p.2) m) k
      = ((entries.reverse.find? (fun p => p.1 == k)).map Prod.snd).or
          (dictLookup m k) := by
  induction entries generalizing m with
  | nil => simp
  | cons p rest ih =>
      rw [List.foldl_cons, ih, List.reverse_cons, List.find?_append]
      by_cases hp : (p.1 == k) = true
      · have hpk : p.1 = k := by simpa using hp
        have hfind : List.find? (fun q : String × String => q.1 == k) [p] = some p := by
          simp [List.find?_cons, hp]
        rw [hfind]
        subst hpk
        rw [dictLookup_dictInsert_self]
        rcases rest.reverse.find? (fun q : String × String => q.1 == p.1) with _ | r
        · simp
        · simp
      · have hne : k ≠ p.1 := fun he => hp (by simp [he])
        have hfind : List.find? (fun q : String × String => q.1 == k) [p] = none := by
          simp [List.find?_cons, hp]
        rw [hfind, Option.or_none, dictLookup_dictInsert_ne m p.1 p.2 k hne]

theorem reverse_find?_eq_getLast?_filter {α : Type} (q : α → Bool) (l : List α) :
    l.reverse.find? q = (l.filter q).getLast? := by
  induction l with
  | nil => rfl
  | cons a t ih =>
      rw [List.reverse_cons, List.find?_append, ih, List.filter_cons]
      by_cases ha : q a = true
      · rw [if_pos ha]
        have hfind : List.find? q [a] = some a := by simp [List.find?_cons, ha]
        rw [hfind, List.getLast?_cons]
        rcases hl : (t.filter q).getLast? with _ | b
        · simp [hl]
        · simp [hl]
      · have ha' : q a = false := by simpa using ha
        rw [if_neg (by simp [ha']), List.find?_cons]
        simp [ha']

theorem nodup_keys_foldl_dictInsert (entries : List (String × String)) (m : Dict)
    (h : (m.map Prod.fst).Nodup) :
    (((entries.foldl (fun m p => dictInsert m p.1 p.2) m)).map Prod.fst).Nodup := by
  induction entries generalizing m with
  | nil => exact h
  | cons p rest ih =>
      rw [List.foldl_cons]
      exact ih _ (nodup_keys_dictInsert m p.1 p.2 h)

/-- The final country mapping, looked up at `k`, is field 1 of the
last surviving table line whose field 0 is `k` (none if there is no
such line). -/
theorem parse_iso3166_lookup (content : String) (k : String) :
    dictLookup (parse_iso3166 content) k
      = ((isoEntries content).filter (fun p => p.1 == k)).getLast?.map Prod.snd := by
  rw [parse_iso3166, foldl_processIsoLine_eq, dictLookup_foldl_dictInsert,
    reverse_find?_eq_getLast?_filter, isoEntries]
  simp [dictLookup]

/-! ## Stripping lemmas -/

theorem dropWhileRev_cons {p : Char → Bool} (c : Char) (t : List Char)
    (hc : p c = false) :
    ((c :: t).reverse.dropWhile p).reverse
      = c :: (t.reverse.dropWhile p).reverse := by
  rw [List.reverse_cons, List.dropWhile_append]
  by_cases h : (t.reverse.dropWhile p).isEmpty = true
  · rw [if_pos h]
    have ht : t.reverse.dropWhile p = [] := by
      simpa [List.isEmpty_iff] using h
    simp [List.dropWhile_cons, hc, ht]
  · rw [if_neg h]
    simp

theorem head?_dropWhile_false {α : Type} {p : α → Bool} (l : List α) (c : α)
    (h : (l.dropWhile p).head? = some c) : p c = false := by
  induction l with
  | nil => simp at h
  | cons a t ih =>
      rw [List.dropWhile_cons] at h
      by_cases ha : p a = true
      · rw [if_pos ha] at h
        exact ih h
      · rw [if_neg ha] at h
        have hac : a = c := by simpa using h
        subst hac
        simpa using ha

theorem dropWhile_idem {α : Type} {p : α → Bool} (l : List α) :
    (l.dropWhile p).dropWhile p = l.dropWhile p := by
  cases hd : l.dropWhile p with
  | nil => rfl
  | cons a t =>
      have ha : p a = false := head?_dropWhile_false l a (by rw [hd]; rfl)
      rw [List.dropWhile_cons, if_neg (by simp [ha])]

theorem pyStripChars_eq_nil (l : List Char) (h : ∀ c ∈ l, pyIsSpace c = true) :
    pyStripChars l = [] := by
  rw [pyStripChars, List.dropWhile_eq_nil_iff.mpr h]
  rfl

theorem pyStripChars_no_leading (l : List Char) :
    (pyStripChars l).dropWhile pyIsSpace = pyStripChars l := by
  rw [pyStripChars]
  cases hd : l.dropWhile pyIsSpace with
  | nil => rfl
  | cons c t =>
      have hc : pyIsSpace c = false :=
        head?_dropWhile_false l c (by rw [hd]; rfl)
      rw [dropWhileRev_cons c t hc, List.dropWhile_cons, if_neg (by simp [hc])]

theorem pyStripChars_no_trailing (l : List Char) :
    (pyStripChars l).reverse.dropWhile pyIsSpace = (pyStripChars l).reverse := by
  rw [pyStripChars, List.reverse_reverse]
  exact dropWhile_idem _

theorem pyStripChars_hash (l : List Char)
    (h : (l.dropWhile pyIsSpace).head? = some '#') :
    ∃ t, pyStripChars l = '#' :: t := by
  cases hd : l.dropWhile pyIsSpace with
  | nil => rw [hd] at h; simp at h
  | cons c t =>
      have hch : c = '#' := by rw [hd] at h; simpa using h
      have hc : pyIsSpace c = false :=
        head?_dropWhile_false l c (by rw [hd]; rfl)
      refine ⟨(t.reverse.dropWhile pyIsSpace).reverse, ?_⟩
      rw [pyStripChars, hd, dropWhileRev_cons c t hc, hch]

theorem skipsLine_of_nil_strip (raw : String) (h : pyStripChars raw.data = []) :
    skipsLine (pyStrip raw) = true := by
  rw [pyStrip, h]
  rfl

theorem skipsLine_of_hash_strip (raw : String) (t : List Char)
    (h : pyStripChars raw.data = '#' :: t) :
    skipsLine (pyStrip raw) = true := by
  rw [pyStrip, h, skipsLine, pyStartsWithHash]
  simp

/-! ## A state-threading embedding of the zone parser

To make the frame property of `parse_zone1970` on `country_map`
non-trivial in a pure embedding, the parser is re-embedded with the
dictionary threaded through every operation that touches it: each
`country_map.get` returns the (possibly changed) dictionary alongside
its value, and both loops pass the dictionary state from one iteration
to the next.  The frame claim is then that the final dictionary state
equals the initial one and the records agree with the pure parser. -/

/-- `country_map.get(code, default)` as a state-passing operation:
reads the dictionary and leaves it as it is. -/
def dictGetSt (m : Dict) (k dflt : String) : String × Dict :=
  (dictGet m k dflt, m)

/-- The emission stage with the dictionary threaded through the
per-code loop. -/
def emitRecordsSt (m : Dict) (parts : List String) : List TZRecord × Dict :=
  if 3 ≤ parts.length then
    let country_codes := pySplitC (parts.getD 0 "") ','
    let tz_name := parts.getD 2 ""
    let region :=
      if tz_name.data.contains '/' then (pySplitC tz_name '/').getD 0 ""
      else tz_name
    country_codes.foldl
      (fun st c =>
        let lm := dictGetSt st.2 c c
        (st.1 ++ [⟨tz_name, lm.1, region⟩], lm.2))
      ([], m)
  else ([], m)

/-- `parse_zone1970` with the dictionary threaded through the per-line
loop. -/
def parse_zone1970St (content : String) (country_map : Dict) :
    List TZRecord × Dict :=
  (pySplitlines content).foldl
    (fun st raw =>
      let line := pyStrip raw
      if skipsLine line then st
      else
        let rm := emitRecordsSt st.2 (pySplitC line '\t')
        (st.1 ++ rm.1, rm.2))
    ([], country_map)

theorem emitRecordsSt_codes_foldl (tz_name region : String) (m : Dict)
    (codes : List String) (acc : List TZRecord) :
    codes.foldl
        (fun st c =>
          let lm := dictGetSt st.2 c c
          (st.1 ++ [⟨tz_name, lm.1, region⟩], lm.2))
        (acc, m)
      = (acc ++ codes.map (fun c => ⟨tz_name, dictGet m c c, region⟩), m) := by
  induction codes generalizing acc with
  | nil => simp
  | cons c rest ih =>
      rw [List.foldl_cons]
      refine (ih (acc ++ [⟨tz_name, dictGet m c c, region⟩])).trans ?_
      simp

theorem emitRecordsSt_eq (m : Dict) (parts : List String) :
    emitRecordsSt m parts = (emitRecords m parts, m) := by
  rw [emitRecordsSt, emitRecords]
  by_cases h : 3 ≤ parts.length
  · rw [if_pos h, if_pos h]
    simp only
    rw [emitRecordsSt_codes_foldl]
    simp
  · rw [if_neg h, if_neg h]

theorem parse_zone1970St_lines_foldl (m : Dict) (lines : List String)
    (acc : List TZRecord) :
    lines.foldl
        (fun st raw =>
          let line := pyStrip raw
          if skipsLine line then st
          else
            let rm := emitRecordsSt st.2 (pySplitC line '\t')
            (st.1 ++ rm.1, rm.2))
        (acc, m)
      = (acc ++ (lines.map (processZoneLine m)).flatten, m) := by
  induction lines generalizing acc with
  | nil => simp
  | cons raw rest ih =>
      rw [List.foldl_cons]
      by_cases h : skipsLine (pyStrip raw) = true
      · simp only [h, if_true, ite_true]
        rw [ih, List.map_cons, List.flatten_cons, processZoneLine_of_skip m raw h]
        simp
      · have h' : skipsLine (pyStrip raw) = false := by simpa using h
        simp only [h', if_false, Bool.false_eq_true, ite_false]
        rw [emitRecordsSt_eq, ih, List.map_cons, List.flatten_cons,
          processZoneLine_of_emit m raw h']
        simp [List.append_assoc]

/-! ## The claims -/

/-- Claim C1: for every zone-table line that survives comment/blank
skipping and has at least three tab-separated fields, with K
comma-separated codes in field 0, `parse_zone1970` emits exactly K
records for it, each with `name` equal to field 2 and `country` equal
to the prefix of field 2 before its first `/` (field 2 itself when it
has no `/`); and the full output is the in-order concatenation of the
per-line groups, records within a group following the listed
country-code order. -/
theorem claim_C1 (content : String) (m : Dict) (raw : String)
    (hsurv : skipsLine (pyStrip raw) = false)
    (hlen : 3 ≤ (pySplitC (pyStrip raw) '\t').length) :
    parse_zone1970 content m
      = ((pySplitlines content).map (processZoneLine m)).flatten
    ∧ processZoneLine m raw
        = (pySplitC ((pySplitC (pyStrip raw) '\t').getD 0 "") ',').map
            (fun c => ⟨(pySplitC (pyStrip raw) '\t').getD 2 "", dictGet m c c,
                       specCountry ((pySplitC (pyStrip raw) '\t').getD 2 "")⟩)
    ∧ (processZoneLine m raw).length
        = (pySplitC ((pySplitC (pyStrip raw) '\t').getD 0 "") ',').length
    ∧ ∀ r ∈ processZoneLine m raw,
        r.name = (pySplitC (pyStrip raw) '\t').getD 2 ""
        ∧ r.country = specCountry ((pySplitC (pyStrip raw) '\t').getD 2 "") := by
  have hz := processZoneLine_of_emit m raw hsurv
  have he := emitRecords_of_long m (pySplitC (pyStrip raw) '\t') hlen
  refine ⟨parse_zone1970_eq_flatten content m, ?_, ?_, ?_⟩
  · rw [hz, he]
  · rw [hz, he, List.length_map]
  · intro r hr
    rw [hz, he] at hr
    rcases List.mem_map.mp hr with ⟨c, _, rfl⟩
    exact ⟨rfl, rfl⟩

/-- Witness for C1 at the spec's example line. -/
theorem claim_C1_witness :
    parse_zone1970 "US,CA\tdata\tAmerica/New_York\tdata" []
      = ((pySplitlines "US,CA\tdata\tAmerica/New_York\tdata").map
          (processZoneLine [])).flatten
    ∧ processZoneLine [] "US,CA\tdata\tAmerica/New_York\tdata"
        = (pySplitC ((pySplitC (pyStrip "US,CA\tdata\tAmerica/New_York\tdata") '\t').getD 0 "") ',').map
            (fun c => ⟨(pySplitC (pyStrip "US,CA\tdata\tAmerica/New_York\tdata") '\t').getD 2 "",
                       dictGet [] c c,
                       specCountry ((pySplitC (pyStrip "US,CA\tdata\tAmerica/New_York\tdata") '\t').getD 2 "")⟩)
    ∧ (processZoneLine [] "US,CA\tdata\tAmerica/New_York\tdata").length
        = (pySplitC ((pySplitC (pyStrip "US,CA\tdata\tAmerica/New_York\tdata") '\t').getD 0 "") ',').length := by
  have h := claim_C1 "US,CA\tdata\tAmerica/New_York\tdata" []
    "US,CA\tdata\tAmerica/New_York\tdata" (by decide) (by decide)
  exact ⟨h.1, h.2.1, h.2.2.1⟩

/-- Counterexample to claim C2 as stated: in the table
`"US\tA\nUS\tB"` the line `"US\tA"` survives skipping and has two
fields, yet the final mapping does not associate `"US"` with `"A"`
(the later duplicate line overwrote it). -/
theorem claim_C2_counterexample :
    "US\tA" ∈ pySplitlines "US\tA\nUS\tB"
    ∧ skipsLine (pyStrip "US\tA") = false
    ∧ 2 ≤ (pySplitC (pyStrip "US\tA") '\t').length
    ∧ (pySplitC (pyStrip "US\tA") '\t').getD 0 "" = "US"
    ∧ (pySplitC (pyStrip "US\tA") '\t').getD 1 "" = "A"
    ∧ ¬ dictLookup (parse_iso3166 "US\tA\nUS\tB") "US" = some "A"
    ∧ ("US", "A") ∉ parse_iso3166 "US\tA\nUS\tB" := by
  decide

/-- Claim C2 (amended): for every country-table line that survives
comment/blank skipping and has at least two tab-separated fields, the
resulting mapping contains an entry with key field 0, whose value is
field 1 of the last such surviving line with that field 0 — in
particular field 1 of this line whenever no later duplicate exists;
comment and blank lines contribute no entry. -/
theorem claim_C2 (content k v : String)
    (hlast : ((isoEntries content).filter (fun p => p.1 == k)).getLast?
        = some (k, v)) :
    dictLookup (parse_iso3166 content) k = some v
    ∧ (∀ m raw, skipsLine (pyStrip raw) = true → processIsoLine m raw = m)
    ∧ ∀ p ∈ isoEntries content,
        (dictLookup (parse_iso3166 content) p.1).isSome = true := by
  refine ⟨?_, fun m raw h => processIsoLine_of_skip m raw h, ?_⟩
  · rw [parse_iso3166_lookup, hlast]
    rfl
  · intro p hp
    rw [parse_iso3166_lookup]
    have hmem : p ∈ (isoEntries content).filter (fun q => q.1 == p.1) :=
      List.mem_filter.mpr ⟨hp, by simp⟩
    have hne : (isoEntries content).filter (fun q => q.1 == p.1) ≠ [] := by
      intro hnil
      rw [hnil] at hmem
      simp at hmem
    have hsome : (((isoEntries content).filter
        (fun q => q.1 == p.1)).getLast?).isSome = true := by
      rw [List.getLast?_isSome]
      exact hne
    rcases Option.isSome_iff_exists.mp hsome with ⟨q, hq⟩
    rw [hq]
    rfl

/-- Witness for C2 (amended) on the duplicate-key table. -/
theorem claim_C2_witness :
    ((isoEntries "US\tA\nUS\tB").filter (fun p => p.1 == "US")).getLast?
        = some ("US", "B")
    ∧ dictLookup (parse_iso3166 "US\tA\nUS\tB") "US" = some "B" :=
  ⟨by decide, (claim_C2 "US\tA\nUS\tB" "US" "B" (by decide)).1⟩

/-- Claim C3: for every record emission of the zone parser, the label
is the mapped country name when the code is a key of the mapping, and
the raw code string verbatim when it is not. -/
theorem claim_C3 (m : Dict) (raw : String)
    (hsurv : skipsLine (pyStrip raw) = false)
    (hlen : 3 ≤ (pySplitC (pyStrip raw) '\t').length) :
    (processZoneLine m raw).map TZRecord.label
      = (pySplitC ((pySplitC (pyStrip raw) '\t').getD 0 "") ',').map
          (fun c => match dictLookup m c with
                    | some name => name
                    | none => c) := by
  rw [processZoneLine_of_emit m raw hsurv,
    emitRecords_of_long m _ hlen, List.map_map]
  apply List.map_congr_left
  intro c _
  show dictGet m c c = _
  rw [dictGet]
  cases dictLookup m c with
  | none => rfl
  | some name => rfl

/-- Witness for C3 exercising both the present-key and absent-key
branches on one line. -/
theorem claim_C3_witness :
    skipsLine (pyStrip "US,CA\tdata\tAmerica/New_York\tdata") = false
    ∧ (processZoneLine [("US", "United States")]
          "US,CA\tdata\tAmerica/New_York\tdata").map TZRecord.label
        = (pySplitC ((pySplitC (pyStrip "US,CA\tdata\tAmerica/New_York\tdata") '\t').getD 0 "") ',').map
            (fun c => match dictLookup [("US", "United States")] c with
                      | some name => name
                      | none => c) :=
  ⟨by decide, claim_C3 [("US", "United States")]
    "US,CA\tdata\tAmerica/New_York\tdata" (by decide) (by decide)⟩

/-- Claim C4: both parsers are total (they are plain functions in this
embedding) and malformed lines are skipped silently: a country-table
line with fewer than two tab-separated fields contributes no mapping
entry, and a zone-table line with fewer than three fields produces
zero records. -/
theorem claim_C4 (m mz : Dict) (raw rawz : String) :
    ((pySplitC (pyStrip raw) '\t').length < 2 → processIsoLine m raw = m)
    ∧ ((pySplitC (pyStrip rawz) '\t').length < 3 → processZoneLine mz rawz = []) := by
  constructor
  · intro h
    rw [processIsoLine]
    by_cases hs : skipsLine (pyStrip raw) = true
    · simp [hs]
    · have hs' : skipsLine (pyStrip raw) = false := by simpa using hs
      have hlt : ¬ 2 ≤ (pySplitC (pyStrip raw) '\t').length := by omega
      simp [hs', hlt]
  · intro h
    rw [processZoneLine]
    by_cases hs : skipsLine (pyStrip rawz) = true
    · simp [hs]
    · have hs' : skipsLine (pyStrip rawz) = false := by simpa using hs
      have hlt : ¬ 3 ≤ (pySplitC (pyStrip rawz) '\t').length := by omega
      simp [hs', emitRecords, hlt]

/-- Witness for C4: a one-field country line and the spec's two-field
zone line, both handled silently. -/
theorem claim_C4_witness :
    (pySplitC (pyStrip "US") '\t').length < 2
    ∧ processIsoLine [] "US" = []
    ∧ (pySplitC (pyStrip "AD\tdata") '\t').length < 3
    ∧ processZoneLine [] "AD\tdata" = [] :=
  ⟨by decide, (claim_C4 [] [] "US" "AD\tdata").1 (by decide), by decide,
   (claim_C4 [] [] "US" "AD\tdata").2 (by decide)⟩

/-- Claim C5: the mapping built by `parse_iso3166` has pairwise
distinct keys, and a duplicated field 0 is mapped to field 1 of the
last surviving line carrying it (last write wins). -/
theorem claim_C5 (content : String) (k : String) :
    ((parse_iso3166 content).map Prod.fst).Nodup
    ∧ dictLookup (parse_iso3166 content) k
        = ((isoEntries content).filter (fun p => p.1 == k)).getLast?.map
            Prod.snd := by
  constructor
  · rw [parse_iso3166, foldl_processIsoLine_eq]
    exact nodup_keys_foldl_dictInsert _ [] (by simp)
  · exact parse_iso3166_lookup content k

/-- Claim C6: on the country-table line `"US\tUnited States"` and the
zone-table line `"US,CA\tdata\tAmerica/New_York\tdata"`, the pipeline
output includes the records
`{name: America/New_York, label: United States, country: America}` and
`{name: America/New_York, label: CA, country: America}`. -/
theorem claim_C6 :
    (⟨"America/New_York", "United States", "America"⟩ : TZRecord)
        ∈ parse_zone1970 "US,CA\tdata\tAmerica/New_York\tdata"
            (parse_iso3166 "US\tUnited States")
    ∧ (⟨"America/New_York", "CA", "America"⟩ : TZRecord)
        ∈ parse_zone1970 "US,CA\tdata\tAmerica/New_York\tdata"
            (parse_iso3166 "US\tUnited States") := by
  decide

/-- Claim C7: the pipeline is deterministic — two runs on equal input
content produce equal mappings and equal record lists. -/
theorem claim_C7 (iso1 iso2 zone1 zone2 : String)
    (hiso : iso1 = iso2) (hzone : zone1 = zone2) :
    parse_iso3166 iso1 = parse_iso3166 iso2
    ∧ parse_zone1970 zone1 (parse_iso3166 iso1)
        = parse_zone1970 zone2 (parse_iso3166 iso2) := by
  subst hiso
  subst hzone
  exact ⟨rfl, rfl⟩

/-- Witness for C7 on the spec's example content. -/
theorem claim_C7_witness :
    parse_iso3166 "US\tUnited States" = parse_iso3166 "US\tUnited States"
    ∧ parse_zone1970 "US,CA\tdata\tAmerica/New_York\tdata"
          (parse_iso3166 "US\tUnited States")
        = parse_zone1970 "US,CA\tdata\tAmerica/New_York\tdata"
            (parse_iso3166 "US\tUnited States") :=
  claim_C7 "US\tUnited States" "US\tUnited States"
    "US,CA\tdata\tAmerica/New_York\tdata"
    "US,CA\tdata\tAmerica/New_York\tdata" rfl rfl

/-- Claim C8: every line is stripped before the blank/comment test and
before splitting: a whitespace-only line is skipped by both parsers, a
line whose first non-whitespace character is `#` is skipped by both
parsers, the stripped line has no leading and no trailing whitespace
(in particular no leading or trailing tabs at split time), and
`"US\t"` strips to a single field, contributing no mapping entry. -/
theorem claim_C8 (m mz : Dict) (raw : String) :
    (raw.data.all pyIsSpace = true →
        processIsoLine m raw = m ∧ processZoneLine mz raw = [])
    ∧ ((raw.data.dropWhile pyIsSpace).head? = some '#' →
        processIsoLine m raw = m ∧ processZoneLine mz raw = [])
    ∧ (pyStrip raw).data.dropWhile pyIsSpace = (pyStrip raw).data
    ∧ (pyStrip raw).data.reverse.dropWhile pyIsSpace = (pyStrip raw).data.reverse
    ∧ processIsoLine m "US\t" = m
    ∧ (pySplitC (pyStrip "US\t") '\t').length = 1 := by
  refine ⟨?_, ?_, ?_, ?_, ?_, by decide⟩
  · intro h
    have hnil : pyStripChars raw.data = [] :=
      pyStripChars_eq_nil _ (List.all_eq_true.mp h)
    have hskip := skipsLine_of_nil_strip raw hnil
    exact ⟨processIsoLine_of_skip m raw hskip,
      processZoneLine_of_skip mz raw hskip⟩
  · intro h
    rcases pyStripChars_hash raw.data h with ⟨t, ht⟩
    have hskip := skipsLine_of_hash_strip raw t ht
    exact ⟨processIsoLine_of_skip m raw hskip,
      processZoneLine_of_skip mz raw hskip⟩
  · exact pyStripChars_no_leading raw.data
  · exact pyStripChars_no_trailing raw.data
  · rw [processIsoLine]
    have hs : skipsLine (pyStrip "US\t") = false := by decide
    have hlt : ¬ 2 ≤ (pySplitC (pyStrip "US\t") '\t').length := by decide
    simp [hs, hlt]

/-- Witness for C8: a whitespace-only line and a comment line with
leading whitespace, both skipped. -/
theorem claim_C8_witness :
    " \t ".data.all pyIsSpace = true
    ∧ processIsoLine [("X", "Y")] " \t " = [("X", "Y")]
    ∧ ("  # comment".data.dropWhile pyIsSpace).head? = some '#'
    ∧ processZoneLine [] "  # comment" = [] :=
  ⟨by decide, ((claim_C8 [("X", "Y")] [] " \t ").1 (by decide)).1, by decide,
   ((claim_C8 [] [] "  # comment").2.1 (by decide)).2⟩

/-- Claim C9: `parse_zone1970` only reads the country mapping: in the
state-threading embedding the mapping after the run equals the mapping
before it, and the records agree with the pure parser. -/
theorem claim_C9 (content : String) (m : Dict) :
    (parse_zone1970St content m).2 = m
    ∧ (parse_zone1970St content m).1 = parse_zone1970 content m := by
  rw [parse_zone1970St, parse_zone1970St_lines_foldl m (pySplitlines content) []]
  refine ⟨rfl, ?_⟩
  rw [parse_zone1970_eq_flatten]
  simp

/-- Claim C10: a zone-table line with at least three fields always
produces at least one record; splitting the empty string on `,` gives
the single empty code, and an emission whose field 0 is empty produces
exactly one record whose label is the empty string unless the empty
string is a key of the mapping, in which case its mapped value is
used. -/
theorem claim_C10 (m : Dict) (raw : String) (parts : List String)
    (hsurv : skipsLine (pyStrip raw) = false)
    (hlen : 3 ≤ (pySplitC (pyStrip raw) '\t').length)
    (hplen : 3 ≤ parts.length)
    (hempty : parts.getD 0 "" = "") :
    1 ≤ (processZoneLine m raw).length
    ∧ pySplitC "" ',' = [""]
    ∧ emitRecords m parts
        = [⟨parts.getD 2 "",
            (match dictLookup m "" with | some name => name | none => ""),
            specCountry (parts.getD 2 "")⟩] := by
  refine ⟨?_, by decide, ?_⟩
  · rw [processZoneLine_of_emit m raw hsurv, emitRecords_of_long m _ hlen,
      List.length_map]
    exact List.length_pos.mpr
      (pySplitC_ne_nil ((pySplitC (pyStrip raw) '\t').getD 0 "") ',')
  · rw [emitRecords_of_long m parts hplen, hempty]
    have h1 : pySplitC "" ',' = [""] := by decide
    rw [h1, List.map_cons, List.map_nil]
    have h2 : dictGet m "" ""
        = (match dictLookup m "" with | some name => name | none => "") := by
      rw [dictGet]
      cases dictLookup m "" with
      | none => rfl
      | some name => rfl
    rw [h2]

/-- Witness for C10: a real surviving line, and an emission whose
field 0 is empty. -/
theorem claim_C10_witness :
    skipsLine (pyStrip "US\tx\tAsia/Tokyo") = false
    ∧ 3 ≤ (pySplitC (pyStrip "US\tx\tAsia/Tokyo") '\t').length
    ∧ (["", "x", "Europe/Paris"] : List String).getD 0 "" = ""
    ∧ 1 ≤ (processZoneLine [] "US\tx\tAsia/Tokyo").length
    ∧ emitRecords [] ["", "x", "Europe/Paris"]
        = [⟨"Europe/Paris", "", "Europe"⟩] := by
  have h := claim_C10 [] "US\tx\tAsia/Tokyo" ["", "x", "Europe/Paris"]
    (by decide) (by decide) (by decide) (by decide)
  refine ⟨by decide, by decide, by decide, h.1, ?_⟩
  rw [h.2.2]
  decide
